import Mathlib

/-!
# Verification of the aiosaber stream-operator catalog

Shallow embedding of `aiosaber/operators.py`: each operator's `handle` /
`handle_stream` is translated into a pure Lean function; a stage's run
over an input stream is the fold of its per-item handler over the list of
real items followed by the END marker, mirroring the loop shape of
`Filter.handle_stream` and the default stream driver. Operators that
treat items as opaque Python objects are embedded generically over a
value type `α`; operators that inspect value structure (Flatten, GetItem,
Sum's builtin fold) use the inductive type `PVal` of Python values.
-/

set_option autoImplicit false

namespace Aiosaber

/-- Keys usable for `dict` entries and as `GetItem` keys: integers and
text (hashable flat values, as in the repository's examples). -/
inductive PKey where
  | kint : Int → PKey
  | kstr : String → PKey
  deriving DecidableEq, Repr

/-- Python values carried on channels: integers, text, ordered sequences
(`list` and `tuple`, both instances of `abc.Sequence`), dictionaries
(ordered association lists with flat keys) and `None`. -/
inductive PVal where
  | int : Int → PVal
  | str : String → PVal
  | list : List PVal → PVal
  | tup : List PVal → PVal
  | dict : List (PKey × PVal) → PVal
  | none : PVal

/-- A datum observed on an edge: either a real item or the END sentinel
(`END` is a unique object distinct from every payload value). -/
inductive Datum (α : Type) where
  | val : α → Datum α
  | END : Datum α
  deriving DecidableEq, Repr

/-- Whether a datum is the END sentinel. -/
def Datum.isEND {α : Type} : Datum α → Bool
  | .END => true
  | .val _ => false

/-- Structural Python exceptions relevant to the operators: the three
error classes `GetItem.handle` catches, which are also the classes raised
by the builtin subscript and `sum` operations modelled below. -/
inductive PyErr where
  | typeError | keyError | indexError
  deriving DecidableEq, Repr

/-- Modelled from the spec: `self.handler` is the middleware-wrapped
entry point of the task runtime (external, not under `src/`); absence of
configured interceptors is the identity behaviour, and the base per-item
handler forwards the awaited datum to `put`. With no interceptors
configured, `handler(get, put)` therefore puts exactly the datum obtained
from `get`. -/
def handlerPuts {α : Type} (d : Datum α) : List (Datum α) := [d]

/-! ## Flatten (`Flatten.__init__` / `Flatten.handle`) -/

/-- `Flatten.__init__`: `self.max_level = max_level or 999999999999` —
a falsy (zero) `max_level` means effectively unbounded depth. -/
def effMaxLevel (max_level : Nat) : Nat :=
  if max_level = 0 then 999999999999 else max_level

mutual

/-- `Flatten.handle`'s inner `traverse(items, level)`: when
`level >= self.max_level + 1` the item is appended whole (the raised and
locally caught `TypeError`); an `abc.Sequence` that is not a `str` (here:
`list` and `tuple`) is expanded child by child at `level + 1`; anything
else is appended whole. -/
def traverse (ml : Nat) : PVal → Nat → List PVal
  | items, level =>
    if level ≥ ml + 1 then [items]
    else
      match items with
      | .list l => traverseList ml l (level + 1)
      | .tup l => traverseList ml l (level + 1)
      | other => [other]

/-- The `for _item in items: traverse(_item, level + 1)` loop of
`Flatten.handle`, appending each child's leaves in order. -/
def traverseList (ml : Nat) : List PVal → Nat → List PVal
  | [], _ => []
  | x :: xs, level => traverse ml x level ++ traverseList ml xs level

end

/-- `Flatten.handle` on one datum: END is forwarded; a real item is
traversed starting at level 1 and each collected leaf is put separately. -/
def flattenHandle (max_level : Nat) : Datum PVal → List (Datum PVal)
  | .END => [.END]
  | .val v => (traverse (effMaxLevel max_level) v 1).map .val

/-! ## Reduce family (`Reduce.handle`, and `Sum`'s fallible builtin fold) -/

/-- The accumulator slot of a `Reduce` stage: either the private `NOTSET`
sentinel object or a real value. Python's `is`-comparison with the
sentinel is the `.notset` constructor test. -/
inductive RVal (α : Type) where
  | notset : RVal α
  | val : α → RVal α
  deriving DecidableEq, Repr

/-- `self.prev_result is not self.NOTSET`, an identity test against the
sentinel. -/
def RVal.isSet {α : Type} : RVal α → Bool
  | .notset => false
  | .val _ => true

/-- The item phase of `Reduce.handle` (branch `data is not END`):
`result = self.fn(self.result, data); self.prev_result, self.result =
self.result, result`. State is `(result, prev_result)`. -/
def reduceItems {α : Type} (fn : RVal α → α → RVal α)
    (st : RVal α × RVal α) (xs : List α) : RVal α × RVal α :=
  xs.foldl (fun st x => (fn st.1 x, st.1)) st

/-- A full `Reduce` run: the stream driver feeds every real item, then
END; on END the stage puts `self.result` iff `self.prev_result` is not
the sentinel (so the put value is whatever object the fold returned,
possibly the sentinel itself). -/
def reduceRun {α : Type} (fn : RVal α → α → RVal α)
    (init : RVal α) (xs : List α) : List (RVal α) :=
  let st := reduceItems fn (init, .notset) xs
  if st.2.isSet then [st.1] else []

/-- The item phase of `Reduce.handle` for a fold that may raise (the fold
callable is user-supplied Python; an exception aborts the stage). -/
def reduceItemsE {α : Type} (fn : RVal α → α → Except PyErr (RVal α))
    (st : RVal α × RVal α) (xs : List α) : Except PyErr (RVal α × RVal α) :=
  xs.foldlM (fun st x => do
    let r ← fn st.1 x
    pure (r, st.1)) st

/-- A full `Reduce` run with a fallible fold: an exception propagates and
no put happens; otherwise END behaves as in `reduceRun`. -/
def reduceRunE {α : Type} (fn : RVal α → α → Except PyErr (RVal α))
    (init : RVal α) (xs : List α) : Except PyErr (List (RVal α)) := do
  let st ← reduceItemsE fn (init, .notset) xs
  pure (if st.2.isSet then [st.1] else [])

/-- Python `int + int`; adding an `int` to any non-`int` raises
`TypeError`. -/
def pyAdd : PVal → PVal → Except PyErr PVal
  | .int a, .int b => .ok (.int (a + b))
  | _, _ => .error .typeError

/-- Python's builtin `sum(iterable, start)`: iterates the FIRST argument
adding each element onto `start`; a non-iterable first argument (an
`int` or `None`) raises `TypeError`, as does summing text. A `dict`
iterates over its keys. -/
def pySum : PVal → PVal → Except PyErr PVal
  | .list l, b => l.foldlM pyAdd b
  | .tup l, b => l.foldlM pyAdd b
  | .dict e, b => (e.map (fun p => match p.1 with
      | .kint n => PVal.int n
      | .kstr s => PVal.str s)).foldlM pyAdd b
  | _, _ => .error .typeError

/-- `Sum`'s fold callable: the builtin `sum` applied as
`sum(self.result, data)`; the sentinel object is not iterable. -/
def sumFn : RVal PVal → PVal → Except PyErr (RVal PVal)
  | .notset, _ => .error .typeError
  | .val a, b => (pySum a b).map .val

/-- A run of the `Sum` stage (`Reduce(by=sum, result=0)`). -/
def sumRun (xs : List PVal) : Except PyErr (List (RVal PVal)) :=
  reduceRunE sumFn (.val (.int 0)) xs

/-! ## Concat (`Concat.handle_stream`) -/

/-- `Concat.handle_stream`: `for q in consumer.queues: async for data in
q: handler(data)`, then `handler(END)` — each queue is drained fully, in
declared order, every datum routed through the middleware entry point. -/
def concatRun {α : Type} (srcs : List (List α)) : List (Datum α) :=
  (srcs.foldl (fun acc q => q.foldl (fun a d => a ++ handlerPuts (.val d)) acc) [])
    ++ handlerPuts .END

/-! ## Sample (`Sample.handle_stream`) -/

/-- One iteration of `Sample.handle_stream`'s loop at counter `cur`:
while `cur < num` the item is appended to the reservoir; otherwise
`i = random.randint(0, cur)` (modelled by the draw sequence `draw`)
and the item replaces slot `i` iff `i < num`. -/
def sampleStep {α : Type} (k : Nat) (draw : Nat → Nat)
    (res : List α) (cur : Nat) (d : α) : List α :=
  if cur < k then res ++ [d]
  else if draw cur < k then res.set (draw cur) d
  else res

/-- The full reservoir loop: fold over the input items, threading the
reservoir and the counter `cur`. -/
def sampleFold {α : Type} (k : Nat) (draw : Nat → Nat)
    (xs : List α) : List α × Nat :=
  xs.foldl (fun p d => (sampleStep k draw p.1 p.2 d, p.2 + 1)) ([], 0)

/-- Everything `Sample.handle_stream` puts: each datum of
`self.reservoir[0:cur]` through the handler, then END. -/
def sampleRun {α : Type} (k : Nat) (draw : Nat → Nat)
    (xs : List α) : List (Datum α) :=
  let p := sampleFold k draw xs
  ((p.1.take p.2).map .val).flatMap handlerPuts ++ handlerPuts .END

/-- The items a `Sample` run puts before END: `self.reservoir[0:cur]`. -/
def sampleEmitted {α : Type} (k : Nat) (draw : Nat → Nat) (xs : List α) : List α :=
  (sampleFold k draw xs).1.take (sampleFold k draw xs).2

/-! ## Filter / Distinct (`Filter.handle_stream`, `Distinct.filter`) -/

/-- `Distinct.filter` with `Filter.handle_stream`'s loop fused: `prev`
starts as a fresh `object()` equal to no datum (modelled as `Option.none`);
an item equal to `prev` is dropped (and `prev` left as is), otherwise it
is forwarded and `prev` becomes the item. -/
def distinctRun {α : Type} [DecidableEq α] (prev : Option α) : List α → List α
  | [] => []
  | x :: xs =>
    if some x = prev then distinctRun prev xs
    else x :: distinctRun (some x) xs

/-- Everything the `Distinct` stage puts on a stream: the kept items,
then END, each through the handler. -/
def distinctStream {α : Type} [DecidableEq α] (xs : List α) : List (Datum α) :=
  ((distinctRun Option.none xs).map .val).flatMap handlerPuts ++ handlerPuts .END

/-- Written from the spec sentence for C7, to be compared with the code's
`distinctRun`: the first item is always forwarded, and a later item is
forwarded iff it differs from the immediately preceding input item. -/
def dedupSpecGo {α : Type} [DecidableEq α] (prev : α) : List α → List α
  | [] => []
  | y :: ys => if y = prev then dedupSpecGo y ys else y :: dedupSpecGo y ys

/-- Spec-side companion of `dedupSpecGo` handling the always-forwarded
first item. -/
def dedupSpec {α : Type} [DecidableEq α] : List α → List α
  | [] => []
  | x :: xs => x :: dedupSpecGo x xs

/-! ## GetItem (`GetItem.handle`) -/

mutual

/-- `copy.deepcopy` on the modelled Python values: a structurally
recursive copy (value-identical; freshness is an aliasing property with
no counterpart on pure values). -/
def deepcopy : PVal → PVal
  | .int n => .int n
  | .str s => .str s
  | .list l => .list (deepcopyList l)
  | .tup l => .tup (deepcopyList l)
  | .dict e => .dict (deepcopyEntries e)
  | .none => .none

/-- `deepcopy` over the elements of a sequence. -/
def deepcopyList : List PVal → List PVal
  | [] => []
  | x :: xs => deepcopy x :: deepcopyList xs

/-- `deepcopy` over the entries of a dict (keys are flat). -/
def deepcopyEntries : List (PKey × PVal) → List (PKey × PVal)
  | [] => []
  | e :: es => (e.1, deepcopy e.2) :: deepcopyEntries es

end

/-- Python's subscript `data[key]` on the modelled values: sequences
index by integer with negative-index wrap-around and raise `IndexError`
out of range or `TypeError` on a non-integer key; dicts look the key up
and raise `KeyError` when absent; text indexes to a one-character string;
`int` and `None` are not subscriptable (`TypeError`). -/
def pyGetItem (v : PVal) (key : PKey) : Except PyErr PVal :=
  match v, key with
  | .list l, .kint i =>
    if h : 0 ≤ i ∧ i.toNat < l.length then .ok (l.get ⟨i.toNat, h.2⟩)
    else if h : 0 ≤ i + l.length ∧ (i + l.length).toNat < l.length then
      .ok (l.get ⟨(i + l.length).toNat, h.2⟩)
    else .error .indexError
  | .list _, .kstr _ => .error .typeError
  | .tup l, .kint i =>
    if h : 0 ≤ i ∧ i.toNat < l.length then .ok (l.get ⟨i.toNat, h.2⟩)
    else if h : 0 ≤ i + l.length ∧ (i + l.length).toNat < l.length then
      .ok (l.get ⟨(i + l.length).toNat, h.2⟩)
    else .error .indexError
  | .tup _, .kstr _ => .error .typeError
  | .dict e, k =>
    match e.find? (fun p => p.1 = k) with
    | some p => .ok p.2
    | Option.none => .error .keyError
  | .str s, .kint i =>
    if h : 0 ≤ i ∧ i.toNat < s.length then .ok (.str (String.mk [s.data.get ⟨i.toNat, h.2⟩]))
    else if h : 0 ≤ i + s.length ∧ (i + s.length).toNat < s.length then
      .ok (.str (String.mk [s.data.get ⟨(i + s.length).toNat, h.2⟩]))
    else .error .indexError
  | .str _, .kstr _ => .error .typeError
  | .int _, _ => .error .typeError
  | .none, _ => .error .typeError

/-- `GetItem.handle`: END is forwarded; otherwise `data[self.key]` is
put, and a `TypeError`, `KeyError` or `IndexError` is recovered into a
deep copy of `self.default`. -/
def getItemHandle (key : PKey) (default : PVal) : Datum PVal → List (Datum PVal)
  | .END => [.END]
  | .val v =>
    match pyGetItem v key with
    | .ok r => [.val r]
    | .error _ => [.val (deepcopy default)]

/-! ## Group (`Group.__init__` / `Group.handle`) -/

/-- The `num` parameter of `Group`: an exact size or `POS_INF` (the
default, `float('inf')`, which no finite bucket length ever reaches). -/
inductive GSize where
  | fin : Nat → GSize
  | inf : GSize
  deriving DecidableEq, Repr

/-- `len(group) >= self.group_size`. -/
def GSize.reached (len : Nat) : GSize → Bool
  | .fin n => n ≤ len
  | .inf => false

/-- The claim's bucket bound: strictly fewer than `group_size` items. -/
def GSize.lt (len : Nat) : GSize → Prop
  | .fin n => len < n
  | .inf => True

/-- `self.groups[key]` on a `defaultdict(list)`: the bucket of `key`, or
the empty bucket when absent. -/
def getBucket {κ α : Type} [DecidableEq κ] : List (κ × List α) → κ → List α
  | [], _ => []
  | e :: rest, k => if e.1 = k then e.2 else getBucket rest k

/-- Writing a bucket back into the table: replace the entry in place, or
append a new entry at the end (Python dict insertion order). -/
def setBucket {κ α : Type} [DecidableEq κ] : List (κ × List α) → κ → List α → List (κ × List α)
  | [], k, g => [(k, g)]
  | e :: rest, k, g => if e.1 = k then (k, g) :: rest else e :: setBucket rest k g

/-- `del self.groups[key]`. -/
def delBucket {κ α : Type} [DecidableEq κ] : List (κ × List α) → κ → List (κ × List α)
  | [], _ => []
  | e :: rest, k => if e.1 = k then rest else e :: delBucket rest k

/-- The item branch of `Group.handle`: append the datum to its key's
bucket; when the bucket reaches `group_size`, put `(key, tuple(bucket))`
and delete the bucket. Returns the new table and the puts. -/
def groupStep {κ α : Type} [DecidableEq κ] (keyFn : α → κ) (size : GSize)
    (t : List (κ × List α)) (d : α) : List (κ × List α) × List (κ × List α) :=
  let k := keyFn d
  let g := getBucket t k ++ [d]
  if GSize.reached g.length size then (delBucket (setBucket t k g) k, [(k, g)])
  else (setBucket t k g, [])

/-- The END branch of `Group.handle`: with `keep_rest`, put every
remaining `(key, tuple(bucket))` in table order and reset the table;
without it, do nothing. -/
def groupEnd {κ α : Type} (keep : Bool)
    (t : List (κ × List α)) : List (κ × List α) × List (κ × List α) :=
  if keep then ([], t) else (t, [])

/-- One `Group.handle` invocation on a datum. -/
def groupHandle {κ α : Type} [DecidableEq κ] (keyFn : α → κ) (size : GSize)
    (keep : Bool) (t : List (κ × List α)) :
    Datum α → List (κ × List α) × List (κ × List α)
  | .val d => groupStep keyFn size t d
  | .END => groupEnd keep t

/-- The grouping table after a sequence of `Group.handle` invocations,
starting from the fresh empty `defaultdict`. -/
def groupRunTable {κ α : Type} [DecidableEq κ] (keyFn : α → κ) (size : GSize)
    (keep : Bool) (inputs : List (Datum α)) : List (κ × List α) :=
  inputs.foldl (fun t d => (groupHandle keyFn size keep t d).1) []

/-! ## Until (`Until.handle`) -/

/-- One `Until.handle` invocation: on a real item with the stop flag
still down, evaluate the stop condition; forward the item only when it
does not match. END triggers nothing. The Python method has no `return`
statement, so it never returns the END self-termination marker (third
component, compare `Take.handle`). Result: (new stop flag, puts,
self-terminates). -/
def untilHandle {α : Type} (p : α → Bool) (stop : Bool) :
    Datum α → Bool × List α × Bool
  | .END => (stop, [], false)
  | .val d =>
    if stop then (stop, [], false)
    else
      let s := p d
      (s, if s then [] else [d], false)

/-- The per-invocation trace of an `Until` stage over a sequence of
inputs: each entry is that invocation's (puts, self-terminates). -/
def untilTrace {α : Type} (p : α → Bool) (stop : Bool) :
    List (Datum α) → List (List α × Bool)
  | [] => []
  | d :: ds =>
    let r := untilHandle p stop d
    (r.2.1, r.2.2) :: untilTrace p r.1 ds

/-- The stop flag after a sequence of `Until.handle` invocations. -/
def untilState {α : Type} (p : α → Bool) (stop : Bool)
    (inputs : List (Datum α)) : Bool :=
  inputs.foldl (fun s d => (untilHandle p s d).1) stop

end Aiosaber

namespace Aiosaber

/-! ## Helper lemmas -/

theorem traverse_str (ml lvl : Nat) (s : String) :
    traverse ml (.str s) lvl = [.str s] := by
  by_cases h : lvl ≥ ml + 1 <;> simp [traverse, h]

theorem concat_inner {α : Type} (q : List α) (acc : List (Datum α)) :
    q.foldl (fun a d => a ++ handlerPuts (.val d)) acc = acc ++ q.map .val := by
  induction q generalizing acc with
  | nil => simp
  | cons x xs ih =>
    rw [List.foldl_cons, ih]
    simp [handlerPuts]

theorem concat_outer {α : Type} (srcs : List (List α)) (acc : List (Datum α)) :
    srcs.foldl (fun acc q => q.foldl (fun a d => a ++ handlerPuts (.val d)) acc) acc
      = acc ++ (srcs.flatMap id).map .val := by
  induction srcs generalizing acc with
  | nil => simp
  | cons q qs ih =>
    rw [List.foldl_cons, concat_inner, ih]
    simp

theorem flatMap_handlerPuts {α : Type} (l : List (Datum α)) :
    l.flatMap handlerPuts = l := by
  induction l <;> simp_all [handlerPuts]

theorem distinct_go {α : Type} [DecidableEq α] (xs : List α) (prev : α) :
    distinctRun (some prev) xs = dedupSpecGo prev xs := by
  induction xs generalizing prev with
  | nil => rfl
  | cons y ys ih =>
    by_cases h : y = prev
    · subst h
      simp [distinctRun, dedupSpecGo, ih]
    · have h2 : ¬ (some y = some prev) := by simpa using h
      simp [distinctRun, dedupSpecGo, h, h2, ih]

end Aiosaber

namespace Aiosaber

/-! ## Claim theorems -/

/-- C2 (counterexample): contrary to the claim, `Flatten` with
`max_level = 1` applied to the single item `[[1,2],[3,[4,5]]]` does NOT
emit `1, 2, 3, [4,5]`. -/
theorem flatten_level1_claim_false :
    flattenHandle 1 (.val (.list [.list [.int 1, .int 2],
        .list [.int 3, .list [.int 4, .int 5]]]))
      ≠ [.val (.int 1), .val (.int 2), .val (.int 3),
         .val (.list [.int 4, .int 5])] := by
  intro h
  have h2 : ([.val (.list [.int 1, .int 2]),
      .val (.list [.int 3, .list [.int 4, .int 5]])] : List (Datum PVal))
      = [.val (.int 1), .val (.int 2), .val (.int 3),
         .val (.list [.int 4, .int 5])] := by
    calc ([.val (.list [.int 1, .int 2]),
        .val (.list [.int 3, .list [.int 4, .int 5]])] : List (Datum PVal))
        = flattenHandle 1 (.val (.list [.list [.int 1, .int 2],
            .list [.int 3, .list [.int 4, .int 5]]])) := rfl
      _ = _ := h
  simpa using congrArg List.length h2

/-- C2 (amended): `Flatten` with `max_level = 1` on the single item
`[[1,2],[3,[4,5]]]` emits the two items `[1,2]` and `[3,[4,5]]` — one
level of sequence nesting is unwrapped, so the output claimed by the spec
(`1, 2, 3, [4,5]`) arises at `max_level = 2` instead; with unset/zero
`max_level` (unbounded) the same item yields `1, 2, 3, 4, 5`; text values
are atomic leaves at any level and are never expanded. -/
theorem flatten_levels :
    flattenHandle 1 (.val (.list [.list [.int 1, .int 2],
        .list [.int 3, .list [.int 4, .int 5]]]))
      = [.val (.list [.int 1, .int 2]), .val (.list [.int 3, .list [.int 4, .int 5]])]
    ∧ flattenHandle 2 (.val (.list [.list [.int 1, .int 2],
        .list [.int 3, .list [.int 4, .int 5]]]))
      = [.val (.int 1), .val (.int 2), .val (.int 3), .val (.list [.int 4, .int 5])]
    ∧ flattenHandle 0 (.val (.list [.list [.int 1, .int 2],
        .list [.int 3, .list [.int 4, .int 5]]]))
      = [.val (.int 1), .val (.int 2), .val (.int 3), .val (.int 4), .val (.int 5)]
    ∧ (∀ (ml lvl : Nat) (s : String), traverse ml (.str s) lvl = [.str s]) :=
  ⟨rfl, rfl, rfl, traverse_str⟩

/-- C3: on the empty stream `Sum` puts nothing at END, as claimed; but on
the stream `[1, 2, 3]` it does not emit `6` — its fold callable is the
builtin `sum`, so the first item triggers `sum(0, 1)`, a `TypeError`
(`int` is not iterable) that aborts the stage with no output. -/
theorem sum_empty_and_typeerror :
    sumRun [] = .ok []
    ∧ sumRun [.int 1, .int 2, .int 3] = .error .typeError :=
  ⟨rfl, rfl⟩

/-- C6: `Concat` forwards every item of source 0, then of source 1, and
so on in declared order, then emits exactly one END. -/
theorem concat_in_order {α : Type} (srcs : List (List α)) :
    concatRun srcs = (srcs.flatMap id).map .val ++ [.END]
    ∧ (concatRun srcs).countP Datum.isEND = 1 := by
  have h : concatRun srcs = (srcs.flatMap id).map .val ++ [.END] := by
    unfold concatRun
    rw [concat_outer]
    simp [handlerPuts]
  refine ⟨h, ?_⟩
  have hz : ((srcs.flatMap id).map (Datum.val (α := α))).countP Datum.isEND = 0 := by
    rw [List.countP_eq_zero]
    intro d hd
    obtain ⟨x, _, rfl⟩ := List.mem_map.mp hd
    simp [Datum.isEND]
  rw [h, List.countP_append, hz, List.countP_singleton]
  rfl

/-- C7: `Distinct` forwards an item iff it differs from the immediately
preceding input item (the first item is always forwarded), collapsing
consecutive runs only, and forwards one END at the end of the stream. -/
theorem distinct_dedups {α : Type} [DecidableEq α] (xs : List α) :
    distinctStream xs = (dedupSpec xs).map Datum.val ++ [.END] := by
  have h : distinctRun Option.none xs = dedupSpec xs := by
    cases xs with
    | nil => rfl
    | cons x rest =>
      show (if some x = Option.none then _ else x :: distinctRun (some x) rest) = _
      simp [dedupSpec, distinct_go]
  unfold distinctStream
  rw [h, flatMap_handlerPuts]
  rfl

/-- C7 (witness): the claim's two examples, via `distinct_dedups` at the
concrete input streams. -/
theorem distinct_dedups_examples :
    distinctStream [(1 : Int), 1, 2, 2, 1]
      = ([1, 2, 1].map Datum.val ++ [.END])
    ∧ distinctStream [(1 : Int), 1, 2, 1, 3, 2]
      = ([1, 2, 1, 3, 2].map Datum.val ++ [.END]) :=
  ⟨(distinct_dedups [(1 : Int), 1, 2, 2, 1]).trans (by decide),
   (distinct_dedups [(1 : Int), 1, 2, 1, 3, 2]).trans (by decide)⟩

end Aiosaber

namespace Aiosaber

theorem reduceItems_cons {α : Type} (fn : RVal α → α → RVal α)
    (r p : RVal α) (x : α) (xs : List α) :
    reduceItems fn (r, p) (x :: xs) = reduceItems fn (fn r x, r) xs := rfl

theorem reduceItems_fst {α : Type} (fn : RVal α → α → RVal α)
    (xs : List α) : ∀ r p : RVal α, (reduceItems fn (r, p) xs).1 = xs.foldl fn r := by
  induction xs with
  | nil => intro r p; rfl
  | cons x t ih =>
    intro r p
    rw [reduceItems_cons, ih, List.foldl_cons]

theorem reduceItems_snd {α : Type} (fn : RVal α → α → RVal α)
    (xs : List α) : ∀ r p : RVal α,
      (reduceItems fn (r, p) xs).2
        = if xs.isEmpty then p else xs.dropLast.foldl fn r := by
  induction xs with
  | nil => intro r p; rfl
  | cons x t ih =>
    intro r p
    rw [reduceItems_cons, ih]
    cases t with
    | nil => rfl
    | cons y u => simp

theorem foldl_ne_notset {α : Type} (fn : RVal α → α → RVal α)
    (hfn : ∀ a b, fn a b ≠ RVal.notset) (ys : List α) :
    ∀ r : RVal α, ys ≠ [] → ys.foldl fn r ≠ RVal.notset := by
  induction ys with
  | nil => intro r h; exact absurd rfl h
  | cons y t ih =>
    intro r _
    cases t with
    | nil => exact hfn r y
    | cons z u => exact ih (fn r y) (by simp)

theorem isSet_of_ne_notset {α : Type} {r : RVal α}
    (h : r ≠ RVal.notset) : r.isSet = true := by
  cases r with
  | notset => exact absurd rfl h
  | val v => rfl

/-- C4 (counterexample): contrary to the claim, a `Reduce` stage with the
default unset accumulator that sees exactly one real item emits nothing
at END (its `prev_result` is still the sentinel), so the emission does
not happen for every initial accumulator whenever at least one item was
seen. -/
theorem reduce_default_one_item_claim_false :
    reduceRun (fun _ b => RVal.val b) RVal.notset [(5 : Int)] = []
    ∧ 1 ≤ [(5 : Int)].length :=
  ⟨rfl, by decide⟩

/-- C4 (amended): for a fold that never returns the sentinel, a
Reduce-family stage with a SET initial accumulator emits the final folded
accumulator exactly once at END iff at least one item was seen (an empty
input emits nothing); with the default unset accumulator it emits the
final fold exactly once iff at least TWO items were seen, because after a
single item `prev_result` still holds the initial sentinel. -/
theorem reduce_emission {α : Type} (fn : RVal α → α → RVal α)
    (hfn : ∀ a b, fn a b ≠ RVal.notset) (a0 : α) (xs : List α) :
    reduceRun fn (.val a0) xs
      = (if xs.isEmpty then [] else [xs.foldl fn (.val a0)])
    ∧ reduceRun fn .notset xs
      = (if xs.length ≤ 1 then [] else [xs.foldl fn .notset]) := by
  constructor
  · simp only [reduceRun, reduceItems_snd, reduceItems_fst]
    cases xs with
    | nil => rfl
    | cons x t =>
      have hset : ((x :: t).dropLast.foldl fn (.val a0)).isSet = true := by
        cases h : (x :: t).dropLast with
        | nil => rfl
        | cons y u =>
          exact isSet_of_ne_notset
            (by rw [← h]; exact foldl_ne_notset fn hfn _ _ (by simp [h]))
      simp [hset]
  · simp only [reduceRun, reduceItems_snd, reduceItems_fst]
    match xs with
    | [] => rfl
    | [x] => rfl
    | x :: y :: t =>
      have hset : ((y :: t).dropLast.foldl fn (fn RVal.notset x)).isSet = true := by
        cases h : (y :: t).dropLast with
        | nil => exact isSet_of_ne_notset (hfn _ _)
        | cons z u =>
          exact isSet_of_ne_notset (foldl_ne_notset fn hfn (z :: u) _ (by simp))
      simp [hset]

/-- C4 (witness): `reduce_emission` at the keep-last fold over `Int`,
with a set accumulator and with the unset default, on a two-item
stream. -/
theorem reduce_emission_witness :
    reduceRun (fun _ b => RVal.val b) (RVal.val (0 : Int)) [1, 2] = [RVal.val 2]
    ∧ reduceRun (fun _ b => RVal.val b) RVal.notset [(1 : Int), 2] = [RVal.val 2] :=
  ⟨(reduce_emission (fun _ b => RVal.val b) (fun a b => by simp) 0 [1, 2]).1.trans
      (by decide),
   (reduce_emission (fun _ b => RVal.val b) (fun a b => by simp) 0 [1, 2]).2.trans
      (by decide)⟩

end Aiosaber

namespace Aiosaber

theorem sampleFold_from {α : Type} (k : Nat) (draw : Nat → Nat) (xs : List α) :
    ∀ (res : List α) (cur : Nat),
      (xs.foldl (fun p d => (sampleStep k draw p.1 p.2 d, p.2 + 1)) (res, cur)).2
        = cur + xs.length
      ∧ (res.length = min k cur →
          (xs.foldl (fun p d => (sampleStep k draw p.1 p.2 d, p.2 + 1)) (res, cur)).1.length
            = min k (cur + xs.length)) := by
  induction xs with
  | nil => intro res cur; exact ⟨rfl, fun h => by simpa using h⟩
  | cons x t ih =>
    intro res cur
    rw [List.foldl_cons]
    refine ⟨?_, ?_⟩
    · rw [(ih (sampleStep k draw res cur x) (cur + 1)).1]
      simp
      omega
    · intro hlen
      have hstep : (sampleStep k draw res cur x).length = min k (cur + 1) := by
        unfold sampleStep
        by_cases h1 : cur < k
        · simp [h1]
          omega
        · by_cases h2 : draw cur < k <;> simp [h1, h2] <;> omega
      rw [(ih (sampleStep k draw res cur x) (cur + 1)).2 hstep]
      simp
      omega

theorem sampleFold_mem {α : Type} (k : Nat) (draw : Nat → Nat) (xs : List α) :
    ∀ (res : List α) (cur : Nat) (y : α),
      y ∈ (xs.foldl (fun p d => (sampleStep k draw p.1 p.2 d, p.2 + 1)) (res, cur)).1
      → y ∈ res ∨ y ∈ xs := by
  induction xs with
  | nil => intro res cur y h; exact Or.inl h
  | cons x t ih =>
    intro res cur y h
    rw [List.foldl_cons] at h
    rcases ih (sampleStep k draw res cur x) (cur + 1) y h with h2 | h2
    · unfold sampleStep at h2
      by_cases h1 : cur < k
      · simp [h1] at h2
        rcases h2 with h2 | h2
        · exact Or.inl h2
        · exact Or.inr (by simp [h2])
      · by_cases h3 : draw cur < k
        · simp [h1, h3] at h2
          rcases List.mem_or_eq_of_mem_set h2 with h4 | h4
          · exact Or.inl h4
          · exact Or.inr (by simp [h4])
        · simp [h1, h3] at h2
          exact Or.inl h2
    · exact Or.inr (by simp [h2])

/-- C5: for every reservoir size `k ≥ 1` (the constructor's assertion)
and every draw sequence with `randint(0, cur)`'s range (each draw at
counter `i` lies in `[0, i]`), a `Sample` run over a stream of `n` items
puts exactly `min(k, n)` items, each taken from the input stream,
followed by exactly one END; items with index `i < k` are stored
directly and an item with `i ≥ k` replaces reservoir slot `draw i` iff
`draw i < k` (the definition of `sampleStep`). -/
theorem sample_emits_min_k_n {α : Type} (k : Nat) (draw : Nat → Nat)
    (xs : List α) (hk : 1 ≤ k) (hdraw : ∀ i, draw i ≤ i) :
    sampleRun k draw xs = (sampleEmitted k draw xs).map .val ++ [.END]
    ∧ (sampleEmitted k draw xs).length = min k xs.length
    ∧ ∀ y ∈ sampleEmitted k draw xs, y ∈ xs := by
  refine ⟨?_, ?_, ?_⟩
  · show ((((sampleFold k draw xs).1.take (sampleFold k draw xs).2).map Datum.val).flatMap
        handlerPuts) ++ handlerPuts .END = _
    rw [flatMap_handlerPuts]
    rfl
  · have h := sampleFold_from k draw xs [] 0
    unfold sampleEmitted sampleFold
    rw [List.length_take]
    unfold sampleFold at h
    rw [h.1, h.2 (by simp)]
    simp
  · intro y hy
    unfold sampleEmitted at hy
    have h1 : y ∈ (sampleFold k draw xs).1 := List.take_subset _ _ hy
    rcases sampleFold_mem k draw xs [] 0 y h1 with h2 | h2
    · cases h2
    · exact h2

/-- C5 (witness): `sample_emits_min_k_n` with `k = 2` and the draw
sequence that always returns 0, over a four-item stream. -/
theorem sample_emits_min_k_n_witness :
    sampleRun 2 (fun _ => 0) [(10 : Int), 20, 30, 40]
      = (sampleEmitted 2 (fun _ => 0) [(10 : Int), 20, 30, 40]).map .val ++ [.END]
    ∧ (sampleEmitted 2 (fun _ => 0) [(10 : Int), 20, 30, 40]).length
      = min 2 [(10 : Int), 20, 30, 40].length
    ∧ ∀ y ∈ sampleEmitted 2 (fun _ => 0) [(10 : Int), 20, 30, 40],
        y ∈ [(10 : Int), 20, 30, 40] :=
  sample_emits_min_k_n 2 (fun _ => 0) [(10 : Int), 20, 30, 40]
    (by decide) (fun i => Nat.zero_le i)

end Aiosaber

namespace Aiosaber

mutual

theorem deepcopy_eq : ∀ v : PVal, deepcopy v = v
  | .int _ => rfl
  | .str _ => rfl
  | .list l => congrArg PVal.list (deepcopyList_eq l)
  | .tup l => congrArg PVal.tup (deepcopyList_eq l)
  | .dict e => congrArg PVal.dict (deepcopyEntries_eq e)
  | .none => rfl

theorem deepcopyList_eq : ∀ l : List PVal, deepcopyList l = l
  | [] => rfl
  | x :: xs => congrArg₂ List.cons (deepcopy_eq x) (deepcopyList_eq xs)

theorem deepcopyEntries_eq : ∀ es : List (PKey × PVal), deepcopyEntries es = es
  | [] => rfl
  | e :: es =>
    congrArg₂ List.cons
      ((congrArg (Prod.mk e.1) (deepcopy_eq e.2)).trans rfl)
      (deepcopyEntries_eq es)

end

/-- C8: for every real item, `GetItem` emits `item[key]` when the
subscript succeeds; when the lookup fails structurally (`TypeError`,
`KeyError` or `IndexError`: wrong type, missing key, or bad index) it
emits a deep copy of the configured default — equal in value to the
default itself — instead of raising; END passes through unchanged. -/
theorem getitem_recovers (key : PKey) (default : PVal) (v : PVal) :
    (∀ r, pyGetItem v key = .ok r → getItemHandle key default (.val v) = [.val r])
    ∧ (∀ e, pyGetItem v key = .error e →
        getItemHandle key default (.val v) = [.val (deepcopy default)])
    ∧ getItemHandle key default .END = [.END]
    ∧ deepcopy default = default := by
  refine ⟨?_, ?_, rfl, deepcopy_eq default⟩
  · intro r h
    simp only [getItemHandle]
    rw [h]
  · intro e h
    simp only [getItemHandle]
    rw [h]

/-- C8 (witness): `getitem_recovers` at concrete inputs — a successful
list index, a missing dict key recovered into the default, and a
non-subscriptable item recovered into the default. -/
theorem getitem_recovers_witness :
    getItemHandle (.kint 1) (.int 0) (.val (.list [.int 7, .int 8]))
      = [.val (.int 8)]
    ∧ getItemHandle (.kint 2) (.int 9) (.val (.dict [(.kint 1, .int 1)]))
      = [.val (deepcopy (.int 9))]
    ∧ getItemHandle (.kint 0) (.int 0) (.val .none) = [.val (deepcopy (.int 0))] :=
  ⟨(getitem_recovers (.kint 1) (.int 0) (.list [.int 7, .int 8])).1 (.int 8) rfl,
   (getitem_recovers (.kint 2) (.int 9) (.dict [(.kint 1, .int 1)])).2.1
      .keyError rfl,
   (getitem_recovers (.kint 0) (.int 0) .none).2.1 .typeError rfl⟩

end Aiosaber

namespace Aiosaber

section GroupLemmas

variable {κ α : Type} [DecidableEq κ]

theorem mem_setBucket {t : List (κ × List α)} {k : κ} {g : List α}
    {p : κ × List α} (h : p ∈ setBucket t k g) : p = (k, g) ∨ p ∈ t := by
  induction t with
  | nil => simpa [setBucket] using h
  | cons e rest ih =>
    unfold setBucket at h
    by_cases he : e.1 = k
    · simp [he] at h
      rcases h with h | h
      · exact Or.inl h
      · exact Or.inr (by simp [h])
    · simp [he] at h
      rcases h with h | h
      · exact Or.inr (by simp [h])
      · rcases ih h with h2 | h2
        · exact Or.inl h2
        · exact Or.inr (by simp [h2])

theorem mem_delBucket {t : List (κ × List α)} {k : κ}
    {p : κ × List α} (h : p ∈ delBucket t k) : p ∈ t := by
  induction t with
  | nil => simpa [delBucket] using h
  | cons e rest ih =>
    unfold delBucket at h
    by_cases he : e.1 = k
    · simp [he] at h
      simp [h]
    · simp [he] at h
      rcases h with h | h
      · simp [h]
      · simp [ih h]

theorem delBucket_setBucket (t : List (κ × List α)) (k : κ) (g : List α) :
    delBucket (setBucket t k g) k = delBucket t k := by
  induction t with
  | nil => simp [setBucket, delBucket]
  | cons e rest ih =>
    by_cases he : e.1 = k
    · simp [setBucket, delBucket, he]
    · simp [setBucket, delBucket, he, ih]

theorem mem_keys_setBucket {t : List (κ × List α)} {k k' : κ} {g : List α}
    (h : k' ∈ (setBucket t k g).map Prod.fst) : k' = k ∨ k' ∈ t.map Prod.fst := by
  rcases List.mem_map.mp h with ⟨p, hp, rfl⟩
  rcases mem_setBucket hp with h2 | h2
  · exact Or.inl (by rw [h2])
  · exact Or.inr (List.mem_map.mpr ⟨p, h2, rfl⟩)

theorem nodup_keys_setBucket {t : List (κ × List α)} {k : κ} {g : List α}
    (h : (t.map Prod.fst).Nodup) : ((setBucket t k g).map Prod.fst).Nodup := by
  induction t with
  | nil => simp [setBucket]
  | cons e rest ih =>
    rw [List.map_cons, List.nodup_cons] at h
    by_cases he : e.1 = k
    · simp only [setBucket, if_pos he, List.map_cons, List.nodup_cons]
      exact ⟨he ▸ h.1, h.2⟩
    · simp only [setBucket, if_neg he, List.map_cons, List.nodup_cons]
      refine ⟨fun hmem => ?_, ih h.2⟩
      rcases mem_keys_setBucket hmem with h2 | h2
      · exact he h2
      · exact h.1 h2

end GroupLemmas

end Aiosaber

namespace Aiosaber

section GroupLemmas2

variable {κ α : Type} [DecidableEq κ]

theorem nodup_keys_delBucket {t : List (κ × List α)} {k : κ}
    (h : (t.map Prod.fst).Nodup) : ((delBucket t k).map Prod.fst).Nodup := by
  induction t with
  | nil => simp [delBucket]
  | cons e rest ih =>
    rw [List.map_cons, List.nodup_cons] at h
    by_cases he : e.1 = k
    · simpa only [delBucket, if_pos he] using h.2
    · simp only [delBucket, if_neg he, List.map_cons, List.nodup_cons]
      refine ⟨fun hmem => ?_, ih h.2⟩
      rcases List.mem_map.mp hmem with ⟨p, hp, hfst⟩
      exact h.1 (hfst ▸ List.mem_map.mpr ⟨p, mem_delBucket hp, rfl⟩)

theorem not_mem_keys_delBucket {t : List (κ × List α)} {k : κ}
    (h : (t.map Prod.fst).Nodup) : k ∉ (delBucket t k).map Prod.fst := by
  induction t with
  | nil => simp [delBucket]
  | cons e rest ih =>
    rw [List.map_cons, List.nodup_cons] at h
    by_cases he : e.1 = k
    · simp only [delBucket, if_pos he]
      exact he ▸ h.1
    · simp only [delBucket, if_neg he, List.map_cons]
      intro hmem
      rcases List.mem_cons.mp hmem with h2 | h2
      · exact he h2.symm
      · exact ih h.2 h2

theorem lt_of_not_reached {len : Nat} {size : GSize}
    (h : GSize.reached len size = false) : GSize.lt len size := by
  cases size with
  | fin n => simp [GSize.reached] at h; simpa [GSize.lt] using h
  | inf => trivial

theorem groupStep_table_inv {keyFn : α → κ} {size : GSize}
    {t : List (κ × List α)} {d : α}
    (h : ∀ p ∈ t, GSize.lt p.2.length size) :
    ∀ p ∈ (groupStep keyFn size t d).1, GSize.lt p.2.length size := by
  intro p hp
  unfold groupStep at hp
  by_cases hr : GSize.reached (getBucket t (keyFn d) ++ [d]).length size = true
  · simp only [hr, if_pos] at hp
    rw [delBucket_setBucket] at hp
    exact h p (mem_delBucket hp)
  · simp only [hr] at hp
    simp at hp
    rcases mem_setBucket hp with h2 | h2
    · rw [h2]
      exact lt_of_not_reached (Bool.not_eq_true _ ▸ hr)
    · exact h p h2

theorem groupRun_table_inv (keyFn : α → κ) (size : GSize) (keep : Bool)
    (inputs : List (Datum α)) :
    ∀ t : List (κ × List α), (∀ p ∈ t, GSize.lt p.2.length size) →
      ∀ p ∈ inputs.foldl (fun t d => (groupHandle keyFn size keep t d).1) t,
        GSize.lt p.2.length size := by
  induction inputs with
  | nil => intro t h; exact h
  | cons i rest ih =>
    intro t h
    rw [List.foldl_cons]
    refine ih _ ?_
    cases i with
    | val d => exact groupStep_table_inv h
    | END =>
      show ∀ p ∈ (groupEnd keep t).1, _
      unfold groupEnd
      cases keep with
      | true => simp
      | false => simpa using h

theorem groupRun_keys_nodup (keyFn : α → κ) (size : GSize) (keep : Bool)
    (inputs : List (Datum α)) :
    ∀ t : List (κ × List α), ((t.map Prod.fst)).Nodup →
      ((inputs.foldl (fun t d => (groupHandle keyFn size keep t d).1) t).map
        Prod.fst).Nodup := by
  induction inputs with
  | nil => intro t h; exact h
  | cons i rest ih =>
    intro t h
    rw [List.foldl_cons]
    refine ih _ ?_
    cases i with
    | val d =>
      unfold groupHandle groupStep
      by_cases hr : GSize.reached (getBucket t (keyFn d) ++ [d]).length size = true
      · simp only [hr, if_pos]
        exact nodup_keys_delBucket (nodup_keys_setBucket h)
      · simp only [hr]
        simp
        exact nodup_keys_setBucket h
    | END =>
      show (((groupEnd keep t).1).map Prod.fst).Nodup
      unfold groupEnd
      cases keep with
      | true => simp
      | false => simpa using h

end GroupLemmas2

end Aiosaber

namespace Aiosaber

/-- C9: after every completed `Group.handle` invocation (any sequence of
item/END inputs from the fresh empty table), every bucket remaining in
the grouping table has strictly fewer than `group_size` items; the
table's keys stay distinct; a bucket that reaches `group_size` during an
item invocation is emitted as `(key, tuple(bucket))` and its key deleted
from the table in that same invocation; and the END invocation with
`keep_rest` flushes every bucket and empties the table entirely. -/
theorem group_bucket_invariant {κ α : Type} [DecidableEq κ] (keyFn : α → κ)
    (size : GSize) (keep : Bool) :
    (∀ inputs : List (Datum α), ∀ p ∈ groupRunTable keyFn size keep inputs,
        GSize.lt p.2.length size)
    ∧ (∀ inputs : List (Datum α),
        ((groupRunTable keyFn size keep inputs).map Prod.fst).Nodup)
    ∧ (∀ (t : List (κ × List α)) (d : α), (t.map Prod.fst).Nodup →
        GSize.reached (getBucket t (keyFn d) ++ [d]).length size = true →
        (groupStep keyFn size t d).2 = [(keyFn d, getBucket t (keyFn d) ++ [d])]
        ∧ keyFn d ∉ (groupStep keyFn size t d).1.map Prod.fst)
    ∧ (∀ t : List (κ × List α), groupEnd true t = ([], t)) := by
  refine ⟨?_, ?_, ?_, fun t => rfl⟩
  · intro inputs p hp
    exact groupRun_table_inv keyFn size keep inputs [] (by simp) p hp
  · intro inputs
    exact groupRun_keys_nodup keyFn size keep inputs [] (by simp)
  · intro t d hnd hr
    constructor
    · unfold groupStep
      simp only [hr, if_pos]
    · unfold groupStep
      simp only [hr, if_pos]
      rw [delBucket_setBucket]
      exact not_mem_keys_delBucket hnd

/-- C9 (witness): `group_bucket_invariant` with `by = x % 2`, `num = 2`,
applied to a concrete run and to a concrete bucket-filling step. -/
theorem group_bucket_invariant_witness :
    GSize.lt ((((0 : Int), [(2 : Int)]) : Int × List Int)).2.length (.fin 2)
    ∧ (groupStep (fun x : Int => x % 2) (.fin 2) [(1, [1])] 3).2
        = [(1, getBucket [((1 : Int), [(1 : Int)])] ((3 : Int) % 2) ++ [3])]
    ∧ ((3 : Int) % 2) ∉ (groupStep (fun x : Int => x % 2) (.fin 2)
        [(1, [1])] 3).1.map Prod.fst :=
  ⟨(group_bucket_invariant (fun x : Int => x % 2) (.fin 2) true).1
      [.val 1, .val 2, .val 3] ((0 : Int), [(2 : Int)]) (by decide),
   ((group_bucket_invariant (fun x : Int => x % 2) (.fin 2) true).2.2.1
      [(1, [1])] 3 (by decide) (by decide)).1,
   ((group_bucket_invariant (fun x : Int => x % 2) (.fin 2) true).2.2.1
      [(1, [1])] 3 (by decide) (by decide)).2⟩

end Aiosaber

namespace Aiosaber

theorem untilHandle_absorb {α : Type} (p : α → Bool) (d : Datum α) :
    untilHandle p true d = (true, [], false) := by
  cases d <;> rfl

theorem untilHandle_noterm {α : Type} (p : α → Bool) (s : Bool) (d : Datum α) :
    (untilHandle p s d).2.2 = false := by
  cases d with
  | END => rfl
  | val x =>
    cases s with
    | true => rfl
    | false =>
      show ((if (p x) = true then ([] : List α) else [x]), false).2 = false
      rfl

theorem untilTrace_stopped {α : Type} (p : α → Bool) (zs : List (Datum α)) :
    untilTrace p true zs = zs.map (fun _ => ([], false)) := by
  induction zs with
  | nil => rfl
  | cons d ds ih =>
    unfold untilTrace
    rw [untilHandle_absorb]
    simpa using ih

theorem untilTrace_ret {α : Type} (p : α → Bool) (ins : List (Datum α)) :
    ∀ s : Bool, (untilTrace p s ins).map (fun e => e.2) = ins.map (fun _ => false) := by
  induction ins with
  | nil => intro s; rfl
  | cons d ds ih =>
    intro s
    unfold untilTrace
    rw [List.map_cons, List.map_cons, untilHandle_noterm, ih]

/-- C10: once an item satisfying the stop condition has been consumed,
`Until` performs no put in any later `handle` invocation and never
self-terminates: every invocation after the matching one (over arbitrary
further inputs, real items or END) produces no puts and no early-END
return; in particular the invocation that receives END puts nothing —
not even END itself — whatever the stop flag; and every invocation of
the whole run returns no self-termination marker. -/
theorem until_silent_after_match {α : Type} (p : α → Bool)
    (ys zs : List (Datum α)) (m : α) (hm : p m = true) :
    untilTrace p (untilState p false (ys ++ [.val m])) zs
      = zs.map (fun _ => ([], false))
    ∧ untilHandle p true (.END : Datum α) = (true, [], false)
    ∧ untilHandle p false (.END : Datum α) = (false, [], false)
    ∧ (untilTrace p false (ys ++ .val m :: zs)).map (fun e => e.2)
      = (ys ++ .val m :: zs).map (fun _ => false) := by
  have hstop : untilState p false (ys ++ [.val m]) = true := by
    unfold untilState
    rw [List.foldl_append]
    show (untilHandle p (List.foldl _ false ys) (.val m)).1 = true
    cases h : List.foldl (fun s d => (untilHandle p s d).1) false ys with
    | true => rw [untilHandle_absorb]
    | false => simp [untilHandle, hm]
  exact ⟨hstop ▸ untilTrace_stopped p zs, rfl, rfl, untilTrace_ret p _ false⟩

/-- C10 (witness): `until_silent_after_match` at the predicate `x = 3`
over `Int`, a stream that matches at the second item and then sees a
further item and END. -/
theorem until_silent_after_match_witness :
    untilTrace (fun x : Int => decide (x = 3))
        (untilState (fun x : Int => decide (x = 3)) false [.val 1, .val 3])
        [.val 4, .END]
      = [([], false), ([], false)]
    ∧ untilHandle (fun x : Int => decide (x = 3)) true (.END : Datum Int)
      = (true, [], false)
    ∧ untilHandle (fun x : Int => decide (x = 3)) false (.END : Datum Int)
      = (false, [], false)
    ∧ (untilTrace (fun x : Int => decide (x = 3)) false
        [.val 1, .val 3, .val 4, .END]).map (fun e => e.2)
      = [false, false, false, false] :=
  until_silent_after_match (fun x : Int => decide (x = 3))
    [.val 1] [.val 4, .END] 3 (by decide)

end Aiosaber
